import Mathlib

/-!
Shallow embedding of the funcy template engine (src/template_renderer.rs).

Rust strings are modelled as lists of characters.  The source iterates over
characters with chars().enumerate(), so all the indices it computes are
character indices, while Rust slicing with those indices counts bytes of the
UTF-8 encoding.  Byte slicing is therefore modelled explicitly: it returns
none exactly where the Rust code would panic (offset out of bounds, offset
not on a character boundary, or start beyond end).  Every fallible operation
is threaded through Option, with none standing for a panic.
-/

/-- Number of bytes in the UTF-8 encoding of a list of characters. -/
def utf8Len (s : List Char) : Nat := (s.map Char.utf8Size).sum

/-- Drops the first n bytes of the UTF-8 encoding of s; none when n is out of
bounds or does not fall on a character boundary, where Rust would panic. -/
def byteDrop : List Char → Nat → Option (List Char)
  | s, 0 => some s
  | [], _ + 1 => none
  | c :: s, n + 1 =>
    if c.utf8Size ≤ n + 1 then byteDrop s (n + 1 - c.utf8Size) else none

/-- Takes the first n bytes of the UTF-8 encoding of s; none when n is out of
bounds or does not fall on a character boundary, where Rust would panic. -/
def byteTake : List Char → Nat → Option (List Char)
  | _, 0 => some []
  | [], _ + 1 => none
  | c :: s, n + 1 =>
    if c.utf8Size ≤ n + 1 then (byteTake s (n + 1 - c.utf8Size)).map (fun t => c :: t)
    else none

/-- Model of the Rust slice expression s[a..b] with byte offsets a and b;
returns none exactly where Rust would panic. -/
def byteSlice (s : List Char) (a b : Nat) : Option (List Char) :=
  if a ≤ b then (byteDrop s a).bind (fun t => byteTake t (b - a)) else none

/-- Model of struct PlaceholderExpr: start and end index of the full tag and
its raw inner content, as produced by parse_placeholders. -/
structure PlaceholderExpr where
  start_idx : Nat
  end_idx : Nat
  content : List Char
  deriving DecidableEq

/-- Model of const PLACEHOLDER_PARTS: [char; 5] = ['<', '!', '$', ' ', '>']. -/
def PLACEHOLDER_PARTS : List Char := ['<', '!', '$', ' ', '>']

/-- One iteration of the scanner state update in parse_placeholders: the
if / else-if chain over (tmp_part, tmp_tag_start, tmp_is_in_tag) for the
character c at index i.  Returns the updated (part, tagStart, inTag). -/
def scanStep (part tagStart : Nat) (inTag : Bool) (i : Nat) (c : Char) : Nat × Nat × Bool :=
  if PLACEHOLDER_PARTS.getD part '#' = c then
    if inTag then (part + 1, tagStart, inTag) else (part + 1, i, true)
  else if part ≠ 4 then (0, tagStart, false)
  else (part, tagStart, inTag)

/-- The main loop of parse_placeholders over the remaining characters, with i
the index of the head of rest in the full input inp.  After the state update,
part = 5 emits a placeholder whose content is the byte slice of inp from
tagStart + 4 to i, exactly as in the source. -/
def parseLoop (inp : List Char) : List Char → Nat → Nat → Nat → Bool → Option (List PlaceholderExpr)
  | [], _, _, _, _ => some []
  | c :: rest, i, part, tagStart, inTag =>
    let s := scanStep part tagStart inTag i c
    if s.1 = 5 then
      match byteSlice inp (s.2.1 + 4) i with
      | none => none
      | some content =>
        (parseLoop inp rest (i + 1) 0 s.2.1 false).map
          (fun ps => { start_idx := s.2.1, end_idx := i + 1, content := content } :: ps)
    else
      parseLoop inp rest (i + 1) s.1 s.2.1 s.2.2

/-- Model of fn parse_placeholders. -/
def parse_placeholders (inp : List Char) : Option (List PlaceholderExpr) :=
  parseLoop inp inp 0 0 0 false

/-- Model of fn split_once: splits at the first occurrence of delim, none when
delim does not occur (splitn(2, delim) yields fewer than two pieces). -/
def split_once : List Char → Char → Option (List Char × List Char)
  | [], _ => none
  | c :: rest, delim =>
    if c = delim then some ([], rest)
    else (split_once rest delim).map (fun p => (c :: p.1, p.2))

/-- The renderer dispatch of a tag content into function name and argument:
split at the first space when a space occurs, otherwise the whole content is
the name and the argument is empty.  Extensionally equal to the contains-test
plus split_once-unwrap performed by render (lemma dispatch_eq_splitNameArg). -/
def splitNameArg (content : List Char) : List Char × List Char :=
  match split_once content ' ' with
  | some fa => fa
  | none => (content, [])

/-- Model of enum RenderError. -/
inductive RenderError where
  | UnknownFunction : PlaceholderExpr → RenderError
  | FunctionError : List Char → List Char → RenderError
  deriving DecidableEq

/-- A handler invocation: given the current private state of a handler, the
invocation name and the argument, produce the Result of the call together
with the updated handler state (PlaceholderFunction::placeholder_fn_handler
takes &mut self, so it can mutate its state even when it returns Err). -/
def HandlerCall (π : Type) : Type :=
  π → List Char → List Char → Except (List Char) (List Char) × π

/-- Lookup in the handler registry (HashMap::get_mut modelled on an
association list with unique keys). -/
def lookupFn {π : Type} : List (List Char × π) → List Char → Option π
  | [], _ => none
  | e :: rest, name => if e.1 = name then some e.2 else lookupFn rest name

/-- In-place mutation of the handler stored under a key (the write-back of a
handler state mutated through HashMap::get_mut). -/
def updateFn {π : Type} : List (List Char × π) → List Char → π → List (List Char × π)
  | [], _, _ => []
  | e :: rest, name, f => if e.1 = name then (e.1, f) :: rest else e :: updateFn rest name f

/-- Model of HashMap::insert: overwrite the entry when the key is present,
append a new entry otherwise. -/
def insertFn {π : Type} (funcs : List (List Char × π)) (name : List Char) (f : π) :
    List (List Char × π) :=
  if (lookupFn funcs name).isSome then updateFn funcs name f else funcs ++ [(name, f)]

/-- Model of struct TemplateRenderer, with the boxed trait objects of the
registry replaced by values of a handler-state type π. -/
structure TemplateRenderer (π : Type) where
  template_str : List Char
  placeholders : List PlaceholderExpr
  placeholder_functions : List (List Char × π)

/-- Model of TemplateRenderer::new. -/
def TemplateRenderer.new (π : Type) : TemplateRenderer π := ⟨[], [], []⟩

/-- Model of TemplateRenderer::with_template; none when parse_placeholders
panics. -/
def with_template (π : Type) (inp_str : List Char) : Option (TemplateRenderer π) :=
  (parse_placeholders inp_str).map (fun ps => ⟨inp_str, ps, []⟩)

/-- Model of TemplateRenderer::set_template; none when parse_placeholders
panics. -/
def set_template {π : Type} (tr : TemplateRenderer π) (inp_str : List Char) :
    Option (TemplateRenderer π) :=
  (parse_placeholders inp_str).map
    (fun ps => { tr with template_str := inp_str, placeholders := ps })

/-- Model of TemplateRenderer::set_placeholder_fn. -/
def set_placeholder_fn {π : Type} (tr : TemplateRenderer π) (name : List Char) (f : π) :
    TemplateRenderer π :=
  { tr with placeholder_functions := insertFn tr.placeholder_functions name f }

/-- Model of TemplateRenderer::append_placeholders (HashMap::extend). -/
def append_placeholders {π : Type} (tr : TemplateRenderer π) (m : List (List Char × π)) :
    TemplateRenderer π :=
  { tr with
      placeholder_functions :=
        m.foldl (fun acc e => insertFn acc e.1 e.2) tr.placeholder_functions }

/-- Model of TemplateRenderer::set_placeholders. -/
def set_placeholders {π : Type} (tr : TemplateRenderer π) (m : List (List Char × π)) :
    TemplateRenderer π :=
  { tr with placeholder_functions := m }

/-- The loop of TemplateRenderer::render over the remaining placeholders,
carrying last_end, the output accumulated so far, and the registry (whose
handler states the calls mutate).  Returns none where the source would panic
(a slice off a character boundary, or the unwrap of split_once). -/
def renderLoop {π : Type} (call : HandlerCall π) (inp : List Char) :
    List PlaceholderExpr → Nat → List Char → List (List Char × π) →
    Option (Except RenderError (List Char) × List (List Char × π))
  | [], last_end, out, funcs =>
    (byteSlice inp last_end (utf8Len inp)).map (fun t => (Except.ok (out ++ t), funcs))
  | p :: ps, last_end, out, funcs =>
    match byteSlice inp last_end p.start_idx with
    | none => none
    | some pre =>
      match (if p.content.contains ' ' then split_once p.content ' ' else some (p.content, [])) with
      | none => none
      | some fa =>
        match lookupFn funcs fa.1 with
        | none => some (Except.error (RenderError.UnknownFunction p), funcs)
        | some h =>
          match call h fa.1 fa.2 with
          | (Except.ok output, h1) =>
            renderLoop call inp ps p.end_idx (out ++ pre ++ output) (updateFn funcs fa.1 h1)
          | (Except.error err, h1) =>
            some (Except.error (RenderError.FunctionError fa.1 err), updateFn funcs fa.1 h1)

/-- Model of TemplateRenderer::render: the rendered string or the first error,
paired with the registry as left behind by the handler calls; none where the
source would panic. -/
def render {π : Type} (call : HandlerCall π) (tr : TemplateRenderer π) :
    Option (Except RenderError (List Char) × List (List Char × π)) :=
  renderLoop call tr.template_str tr.placeholders 0 [] tr.placeholder_functions

/-- Successful execution of the handler calls of a list of tags in order,
threading the registry; none as soon as a tag has no registered handler or
its handler returns an error.  Used to express that the tags strictly before
a failing tag all succeed. -/
def runTags {π : Type} (call : HandlerCall π) :
    List PlaceholderExpr → List (List Char × π) → Option (List (List Char × π))
  | [], funcs => some funcs
  | p :: ps, funcs =>
    match lookupFn funcs (splitNameArg p.content).1 with
    | none => none
    | some h =>
      match call h (splitNameArg p.content).1 (splitNameArg p.content).2 with
      | (Except.ok _, h1) => runTags call ps (updateFn funcs (splitNameArg p.content).1 h1)
      | (Except.error _, _) => none

/-- The documented invariant of the renderer state: the stored tag list is the
scan of the stored template text. -/
def Consistent {π : Type} (tr : TemplateRenderer π) : Prop :=
  parse_placeholders tr.template_str = some tr.placeholders

/-- The shape facts the scanner guarantees for an emitted occurrence: the tag
spans at least the four opener characters plus the terminator, lies inside
the input, starts with the characters of the opener, ends at a terminator,
and its content is the byte slice strictly inside the delimiters. -/
def GoodTag (inp : List Char) (p : PlaceholderExpr) : Prop :=
  p.start_idx + 5 ≤ p.end_idx ∧ p.end_idx ≤ inp.length ∧
  inp[p.start_idx]? = some '<' ∧ inp[p.start_idx + 1]? = some '!' ∧
  inp[p.start_idx + 2]? = some '$' ∧ inp[p.start_idx + 3]? = some ' ' ∧
  inp[p.end_idx - 1]? = some '>' ∧
  byteSlice inp (p.start_idx + 4) (p.end_idx - 1) = some p.content

/-- The loop invariant of the scanner state: outside a tag the cursor is 0;
inside a tag at most the four opener slots are matched, the matched opener
characters stand at tagStart onwards, and the current index sits right after
the matched delimiters (exactly when part < 4) or anywhere past the full
opener (when part = 4). -/
def ScanInv (inp : List Char) (i part tagStart : Nat) (inTag : Bool) : Prop :=
  (inTag = false → part = 0) ∧
  (inTag = true →
    part ≤ 4 ∧
    (∀ k, k < part → k < 4 → inp[tagStart + k]? = PLACEHOLDER_PARTS[k]?) ∧
    ((part < 4 ∧ i = tagStart + part) ∨ (part = 4 ∧ tagStart + 4 ≤ i)))

/-- A trivial handler over trivial state, used to instantiate theorems at
concrete inputs. -/
def exCall : HandlerCall Unit := fun _ _ _ => (Except.ok [], ())

/-- A concrete renderer holding one scanned tag and an empty registry, used to
instantiate theorems at concrete inputs. -/
def exTR : TemplateRenderer Unit :=
  { template_str := ['<', '!', '$', ' ', 'x', '>'],
    placeholders := [{ start_idx := 0, end_idx := 6, content := ['x'] }],
    placeholder_functions := [] }


/-! Basic facts about the byte-offset slicing model. -/

theorem utf8Len_cons (c : Char) (s : List Char) :
    utf8Len (c :: s) = c.utf8Size + utf8Len s := by
  simp [utf8Len]

theorem byteDrop_zero (s : List Char) : byteDrop s 0 = some s := by
  cases s <;> rfl

theorem byteTake_zero (s : List Char) : byteTake s 0 = some [] := by
  cases s <;> rfl

theorem byteDrop_cons (c : Char) (s : List Char) (n : Nat) (h : 0 < n) :
    byteDrop (c :: s) n =
      if c.utf8Size ≤ n then byteDrop s (n - c.utf8Size) else none := by
  cases n with
  | zero => exact absurd h (by omega)
  | succ m => rfl

theorem byteTake_cons (c : Char) (s : List Char) (n : Nat) (h : 0 < n) :
    byteTake (c :: s) n =
      if c.utf8Size ≤ n then (byteTake s (n - c.utf8Size)).map (fun t => c :: t)
      else none := by
  cases n with
  | zero => exact absurd h (by omega)
  | succ m => rfl

theorem byteTake_utf8Len (s : List Char) : byteTake s (utf8Len s) = some s := by
  induction s with
  | nil => rfl
  | cons c s ih =>
    have hpos : 0 < utf8Len (c :: s) := by
      rw [utf8Len_cons]; have := c.utf8Size_pos; omega
    rw [byteTake_cons _ _ _ hpos, utf8Len_cons, if_pos (by omega),
      Nat.add_sub_cancel_left, ih]
    rfl

theorem byteDrop_eq_some (s : List Char) (a : Nat) (t : List Char)
    (h : byteDrop s a = some t) : ∃ m, m ≤ a ∧ t = s.drop m := by
  induction s generalizing a with
  | nil =>
    cases a with
    | zero => exact ⟨0, by omega, by injection h; simp [*]⟩
    | succ n => exact absurd h (by simp [byteDrop])
  | cons c s ih =>
    cases a with
    | zero => exact ⟨0, by omega, by injection h; simp [*]⟩
    | succ n =>
      rw [byteDrop_cons _ _ _ (by omega)] at h
      by_cases hsz : c.utf8Size ≤ n + 1
      · rw [if_pos hsz] at h
        obtain ⟨m, hm, rfl⟩ := ih _ h
        have := c.utf8Size_pos
        exact ⟨m + 1, by omega, by simp⟩
      · rw [if_neg hsz] at h
        exact absurd h (by simp)

theorem byteDrop_utf8Len_eq (s : List Char) (a : Nat) (t : List Char)
    (h : byteDrop s a = some t) : utf8Len s = a + utf8Len t := by
  induction s generalizing a with
  | nil =>
    cases a with
    | zero => injection h; simp [*]
    | succ n => exact absurd h (by simp [byteDrop])
  | cons c s ih =>
    cases a with
    | zero => injection h; simp [*]
    | succ n =>
      rw [byteDrop_cons _ _ _ (by omega)] at h
      by_cases hsz : c.utf8Size ≤ n + 1
      · rw [if_pos hsz] at h
        have := ih _ h
        rw [utf8Len_cons]
        omega
      · rw [if_neg hsz] at h
        exact absurd h (by simp)

theorem byteSlice_full (s : List Char) : byteSlice s 0 (utf8Len s) = some s := by
  simp [byteSlice, byteDrop_zero, byteTake_utf8Len]

theorem byteSlice_utf8Len_suffix (s : List Char) (a : Nat) (t : List Char)
    (h : byteSlice s a (utf8Len s) = some t) : ∃ m, m ≤ a ∧ t = s.drop m := by
  rw [byteSlice] at h
  by_cases hab : a ≤ utf8Len s
  · rw [if_pos hab] at h
    cases hd : byteDrop s a with
    | none => rw [hd] at h; exact absurd h (by simp)
    | some t1 =>
      rw [hd] at h
      simp only [Option.some_bind] at h
      have hlen : utf8Len s - a = utf8Len t1 := by
        have := byteDrop_utf8Len_eq s a t1 hd
        omega
      rw [hlen, byteTake_utf8Len] at h
      injection h with h
      subst h
      exact byteDrop_eq_some s a t1 hd
  · rw [if_neg hab] at h
    exact absurd h (by simp)

/-! Byte offsets agree with character offsets on single-byte (ASCII) text. -/

theorem byteDrop_ascii (s : List Char) (h : ∀ c ∈ s, c.utf8Size = 1) (a : Nat)
    (ha : a ≤ s.length) : byteDrop s a = some (s.drop a) := by
  induction s generalizing a with
  | nil =>
    cases a with
    | zero => rfl
    | succ n => exact absurd ha (Nat.not_succ_le_zero n)
  | cons c s ih =>
    cases a with
    | zero => rfl
    | succ n =>
      rw [byteDrop_cons _ _ _ (by omega)]
      have hc : c.utf8Size = 1 := h c (by simp)
      rw [hc, if_pos (by omega)]
      simpa using ih (fun x hx => h x (by simp [hx])) n (by simpa using ha)

theorem byteTake_ascii (s : List Char) (h : ∀ c ∈ s, c.utf8Size = 1) (n : Nat)
    (hn : n ≤ s.length) : byteTake s n = some (s.take n) := by
  induction s generalizing n with
  | nil =>
    cases n with
    | zero => rfl
    | succ m => exact absurd hn (Nat.not_succ_le_zero m)
  | cons c s ih =>
    cases n with
    | zero => rfl
    | succ m =>
      rw [byteTake_cons _ _ _ (by omega)]
      have hc : c.utf8Size = 1 := h c (by simp)
      rw [hc, if_pos (by omega), Nat.add_sub_cancel]
      rw [ih (fun x hx => h x (by simp [hx])) m (by simpa using hn)]
      simp

theorem byteSlice_ascii (s : List Char) (h : ∀ c ∈ s, c.utf8Size = 1) (a b : Nat)
    (hab : a ≤ b) (hb : b ≤ s.length) :
    byteSlice s a b = some ((s.drop a).take (b - a)) := by
  rw [byteSlice, if_pos hab, byteDrop_ascii s h a (le_trans hab hb)]
  simp only [Option.some_bind]
  exact byteTake_ascii (s.drop a) (fun x hx => h x (List.mem_of_mem_drop hx)) (b - a)
    (by simp [List.length_drop]; omega)

/-! Facts about split_once and the renderer dispatch of a tag content. -/

theorem split_once_eq_none_iff (l : List Char) (d : Char) :
    split_once l d = none ↔ l.contains d = false := by
  induction l with
  | nil => simp [split_once]
  | cons x l ih =>
    by_cases hx : x = d
    · subst hx
      simp [split_once, List.contains_cons]
    · rw [split_once]
      rw [if_neg hx]
      simp only [Option.map_eq_none', List.contains_cons]
      rw [ih]
      have : (d == x) = false := by
        simp only [beq_eq_false_iff_ne, ne_eq]
        exact fun hdx => hx hdx.symm
      rw [this]
      simp

theorem split_once_eq_some (l : List Char) (d : Char) (pre post : List Char)
    (h : split_once l d = some (pre, post)) :
    l = pre ++ d :: post ∧ pre.contains d = false := by
  induction l generalizing pre post with
  | nil => exact absurd h (by simp [split_once])
  | cons x l ih =>
    rw [split_once] at h
    by_cases hx : x = d
    · rw [if_pos hx] at h
      injection h with h
      obtain ⟨h1, h2⟩ := Prod.mk.inj h
      subst h1; subst h2; subst hx
      simp
    · rw [if_neg hx] at h
      rw [Option.map_eq_some'] at h
      obtain ⟨p, hp, hpe⟩ := h
      obtain ⟨h1, h2⟩ := Prod.mk.inj hpe
      subst h1; subst h2
      obtain ⟨hl, hc⟩ := ih p.1 p.2 (by rw [hp])
      constructor
      · rw [hl]; rfl
      · rw [List.contains_cons, hc]
        have : (d == x) = false := by
          simp only [beq_eq_false_iff_ne, ne_eq]
          exact fun hdx => hx hdx.symm
        rw [this]
        rfl

theorem dispatch_eq_splitNameArg (content : List Char) :
    (if content.contains ' ' then split_once content ' ' else some (content, [])) =
      some (splitNameArg content) := by
  cases hs : split_once content ' ' with
  | none =>
    rw [(split_once_eq_none_iff content ' ').mp hs]
    rw [splitNameArg, hs]
    rfl
  | some fa =>
    have hcont : content.contains ' ' = true := by
      cases h : content.contains ' ' with
      | false =>
        rw [(split_once_eq_none_iff content ' ').mpr h] at hs
        exact absurd hs (by simp)
      | true => rfl
    rw [hcont, splitNameArg, hs]
    rfl

/-! Unfolding equations for the scanner loop. -/

theorem scanStep_match_in (part tagStart i : Nat) (c : Char)
    (h : PLACEHOLDER_PARTS.getD part '#' = c) :
    scanStep part tagStart true i c = (part + 1, tagStart, true) := by
  unfold scanStep
  rw [if_pos h]
  rfl

theorem scanStep_match_out (part tagStart i : Nat) (c : Char)
    (h : PLACEHOLDER_PARTS.getD part '#' = c) :
    scanStep part tagStart false i c = (part + 1, i, true) := by
  unfold scanStep
  rw [if_pos h]
  rfl

theorem scanStep_reset (part tagStart i : Nat) (inTag : Bool) (c : Char)
    (h : ¬ PLACEHOLDER_PARTS.getD part '#' = c) (hp : part ≠ 4) :
    scanStep part tagStart inTag i c = (0, tagStart, false) := by
  unfold scanStep
  rw [if_neg h, if_pos hp]

theorem scanStep_stay (tagStart i : Nat) (inTag : Bool) (c : Char)
    (h : ¬ PLACEHOLDER_PARTS.getD 4 '#' = c) :
    scanStep 4 tagStart inTag i c = (4, tagStart, inTag) := by
  unfold scanStep
  rw [if_neg h]
  simp

theorem parseLoop_cons (inp rest : List Char) (c : Char) (i part tagStart : Nat)
    (inTag : Bool) :
    parseLoop inp (c :: rest) i part tagStart inTag =
      if (scanStep part tagStart inTag i c).1 = 5 then
        match byteSlice inp ((scanStep part tagStart inTag i c).2.1 + 4) i with
        | none => none
        | some content =>
          (parseLoop inp rest (i + 1) 0 (scanStep part tagStart inTag i c).2.1 false).map
            (fun ps =>
              { start_idx := (scanStep part tagStart inTag i c).2.1, end_idx := i + 1,
                content := content } :: ps)
      else
        parseLoop inp rest (i + 1) (scanStep part tagStart inTag i c).1
          (scanStep part tagStart inTag i c).2.1 (scanStep part tagStart inTag i c).2.2 := rfl

theorem parseLoop_match_in (inp rest : List Char) (c : Char) (i part tagStart : Nat)
    (hc : PLACEHOLDER_PARTS.getD part '#' = c) :
    parseLoop inp (c :: rest) i part tagStart true =
      if part + 1 = 5 then
        match byteSlice inp (tagStart + 4) i with
        | none => none
        | some content =>
          (parseLoop inp rest (i + 1) 0 tagStart false).map
            (fun ps => { start_idx := tagStart, end_idx := i + 1, content := content } :: ps)
      else
        parseLoop inp rest (i + 1) (part + 1) tagStart true := by
  rw [parseLoop_cons, scanStep_match_in part tagStart i c hc]

theorem parseLoop_match_out (inp rest : List Char) (c : Char) (i part tagStart : Nat)
    (hc : PLACEHOLDER_PARTS.getD part '#' = c) :
    parseLoop inp (c :: rest) i part tagStart false =
      if part + 1 = 5 then
        match byteSlice inp (i + 4) i with
        | none => none
        | some content =>
          (parseLoop inp rest (i + 1) 0 i false).map
            (fun ps => { start_idx := i, end_idx := i + 1, content := content } :: ps)
      else
        parseLoop inp rest (i + 1) (part + 1) i true := by
  rw [parseLoop_cons, scanStep_match_out part tagStart i c hc]

theorem parseLoop_reset (inp rest : List Char) (c : Char) (i part tagStart : Nat)
    (inTag : Bool) (hc : ¬ PLACEHOLDER_PARTS.getD part '#' = c) (hp : part ≠ 4) :
    parseLoop inp (c :: rest) i part tagStart inTag =
      parseLoop inp rest (i + 1) 0 tagStart false := by
  rw [parseLoop_cons, scanStep_reset part tagStart i inTag c hc hp]
  rfl

theorem parseLoop_stay (inp rest : List Char) (c : Char) (i tagStart : Nat)
    (inTag : Bool) (hc : ¬ PLACEHOLDER_PARTS.getD 4 '#' = c) :
    parseLoop inp (c :: rest) i 4 tagStart inTag =
      parseLoop inp rest (i + 1) 4 tagStart inTag := by
  rw [parseLoop_cons, scanStep_stay tagStart i inTag c hc]
  rfl

theorem scanInv_reset (inp : List Char) (i tagStart : Nat) :
    ScanInv inp i 0 tagStart false :=
  ⟨fun _ => rfl, fun h => nomatch h⟩

theorem placeholder_parts_getD (k : Nat) (hk : k < 5) :
    PLACEHOLDER_PARTS[k]? = some (PLACEHOLDER_PARTS.getD k '#') := by
  interval_cases k <;> rfl

theorem drop_cons_facts (inp : List Char) (i : Nat) (c : Char) (rest : List Char)
    (h : inp.drop i = c :: rest) :
    inp[i]? = some c ∧ inp.drop (i + 1) = rest ∧ i < inp.length := by
  refine ⟨?_, ?_, ?_⟩
  · have h0 := List.getElem?_drop inp i 0
    rw [h] at h0
    simpa using h0.symm
  · have h1 : (inp.drop i).drop 1 = rest := by rw [h]; rfl
    rwa [List.drop_drop] at h1
  · by_contra hlen
    push_neg at hlen
    rw [List.drop_eq_nil_of_le hlen] at h
    exact List.noConfusion h

theorem if_true_nat (a b : Nat) : (if (true = true) then a else b) = a := rfl

theorem if_false_nat (a b : Nat) : (if (false = true) then a else b) = b := rfl

theorem scanInv_mk (inp : List Char) (i part tagStart : Nat)
    (h1 : part ≤ 4)
    (h2 : ∀ k, k < part → k < 4 → inp[tagStart + k]? = PLACEHOLDER_PARTS[k]?)
    (h3 : (part < 4 ∧ i = tagStart + part) ∨ (part = 4 ∧ tagStart + 4 ≤ i)) :
    ScanInv inp i part tagStart true :=
  ⟨fun h => (nomatch h), fun _ => ⟨h1, h2, h3⟩⟩

/-- Soundness of the scanner loop: under the loop invariant, every emitted
occurrence satisfies GoodTag, starts no earlier than the current position
(or the current tag start while inside a tag), and the emitted occurrences
are pairwise separated (each ends no later than any later one starts). -/
theorem parseLoop_good (inp : List Char) (rest : List Char) :
    ∀ (i part tagStart : Nat) (inTag : Bool) (ps : List PlaceholderExpr),
      rest = inp.drop i →
      ScanInv inp i part tagStart inTag →
      parseLoop inp rest i part tagStart inTag = some ps →
      (∀ p ∈ ps, GoodTag inp p ∧ (if inTag then tagStart else i) ≤ p.start_idx) ∧
      ps.Pairwise (fun a b => a.end_idx ≤ b.start_idx) := by
  induction rest with
  | nil =>
    intro i part tagStart inTag ps _ _ hp
    have hnil : parseLoop inp [] i part tagStart inTag = some [] := rfl
    rw [hnil] at hp
    injection hp with hp
    subst hp
    simp
  | cons c rest ih =>
    intro i part tagStart inTag ps hdrop hinv hp
    obtain ⟨hget, hdrop1, hlen⟩ := drop_cons_facts inp i c rest hdrop.symm
    obtain ⟨hout, hin⟩ := hinv
    by_cases hc : PLACEHOLDER_PARTS.getD part '#' = c
    · cases hg : inTag with
      | true =>
        subst hg
        obtain ⟨hple, hchars, hpos⟩ := hin rfl
        rw [parseLoop_match_in inp rest c i part tagStart hc] at hp
        by_cases h5 : part + 1 = 5
        · -- a full tag is emitted at index i
          have hp4 : part = 4 := by omega
          have hts : tagStart + 4 ≤ i := by
            rcases hpos with ⟨h4, _⟩ | ⟨_, h⟩
            · omega
            · exact h
          rw [if_pos h5] at hp
          split at hp
          · exact absurd hp (by simp)
          · rename_i content hsl
            rw [Option.map_eq_some'] at hp
            obtain ⟨ps1, hrec, hps⟩ := hp
            subst hps
            obtain ⟨ihall, ihpw⟩ :=
              ih (i + 1) 0 tagStart false ps1 hdrop1.symm (scanInv_reset inp (i + 1) tagStart) hrec
            have hcgt : c = '>' := by
              rw [hp4] at hc
              exact hc.symm
            have hgood :
                GoodTag inp { start_idx := tagStart, end_idx := i + 1, content := content } := by
              refine ⟨?_, ?_, ?_, ?_, ?_, ?_, ?_, ?_⟩
              · show tagStart + 5 ≤ i + 1
                omega
              · show i + 1 ≤ inp.length
                omega
              · have h0 := hchars 0 (by omega) (by omega)
                simpa [PLACEHOLDER_PARTS] using h0
              · have h1 := hchars 1 (by omega) (by omega)
                simpa [PLACEHOLDER_PARTS] using h1
              · have h2 := hchars 2 (by omega) (by omega)
                simpa [PLACEHOLDER_PARTS] using h2
              · have h3 := hchars 3 (by omega) (by omega)
                simpa [PLACEHOLDER_PARTS] using h3
              · show inp[i + 1 - 1]? = some '>'
                rw [Nat.add_sub_cancel, hget, hcgt]
              · show byteSlice inp (tagStart + 4) (i + 1 - 1) = some content
                rw [Nat.add_sub_cancel]
                exact hsl
            constructor
            · intro p hmem
              rcases List.mem_cons.mp hmem with rfl | hmem1
              · refine ⟨hgood, ?_⟩
                rw [if_true_nat]
              · obtain ⟨hg1, hb1⟩ := ihall p hmem1
                rw [if_false_nat] at hb1
                refine ⟨hg1, ?_⟩
                rw [if_true_nat]
                omega
            · rw [List.pairwise_cons]
              refine ⟨?_, ihpw⟩
              intro q hq
              have hb := (ihall q hq).2
              rw [if_false_nat] at hb
              show i + 1 ≤ q.start_idx
              omega
        · -- the opener cursor advances
          rw [if_neg h5] at hp
          have hinv1 : ScanInv inp (i + 1) (part + 1) tagStart true := by
            refine scanInv_mk inp (i + 1) (part + 1) tagStart (by omega) ?_ ?_
            · intro k hk hk4
              by_cases hkp : k < part
              · exact hchars k hkp hk4
              · have hke : k = part := by omega
                have hip : i = tagStart + part := by
                  rcases hpos with ⟨_, h⟩ | ⟨h4, _⟩
                  · exact h
                  · omega
                rw [hke, ← hip, hget, placeholder_parts_getD part (by omega), hc]
            · by_cases h44 : part + 1 = 4
              · refine Or.inr ⟨h44, ?_⟩
                rcases hpos with ⟨_, hpe⟩ | ⟨h4, _⟩
                · omega
                · omega
              · refine Or.inl ⟨(by omega), ?_⟩
                rcases hpos with ⟨_, hpe⟩ | ⟨h4, _⟩
                · omega
                · omega
          obtain ⟨ihall, ihpw⟩ := ih (i + 1) (part + 1) tagStart true ps hdrop1.symm hinv1 hp
          refine ⟨fun p hmem => ⟨(ihall p hmem).1, ?_⟩, ihpw⟩
          have hb := (ihall p hmem).2
          rw [if_true_nat] at hb
          rw [if_true_nat]
          exact hb
      | false =>
        subst hg
        have hp0 : part = 0 := hout rfl
        subst hp0
        rw [parseLoop_match_out inp rest c i 0 tagStart hc] at hp
        rw [if_neg (by omega)] at hp
        have hcl : c = '<' := by
          simpa [PLACEHOLDER_PARTS] using hc.symm
        have hinv1 : ScanInv inp (i + 1) 1 i true := by
          refine scanInv_mk inp (i + 1) 1 i (by omega) ?_ (Or.inl ⟨(by omega), (by omega)⟩)
          intro k hk hk4
          have hk0 : k = 0 := by omega
          subst hk0
          rw [Nat.add_zero, hget, hcl]
          rfl
        obtain ⟨ihall, ihpw⟩ := ih (i + 1) 1 i true ps hdrop1.symm hinv1 hp
        refine ⟨fun p hmem => ⟨(ihall p hmem).1, ?_⟩, ihpw⟩
        have hb := (ihall p hmem).2
        rw [if_true_nat] at hb
        rw [if_false_nat]
        omega
    · by_cases hp4 : part = 4
      · -- mismatch with part = 4: state is unchanged, content accumulates
        subst hp4
        have hg : inTag = true := by
          cases hgg : inTag
          · exfalso
            have := hout hgg
            omega
          · rfl
        subst hg
        rw [parseLoop_stay inp rest c i tagStart true hc] at hp
        obtain ⟨hple, hchars, hpos⟩ := hin rfl
        have hts4 : tagStart + 4 ≤ i := by
          rcases hpos with ⟨h4, _⟩ | ⟨_, h⟩
          · omega
          · exact h
        have hinv1 : ScanInv inp (i + 1) 4 tagStart true :=
          scanInv_mk inp (i + 1) 4 tagStart (by omega) hchars (Or.inr ⟨rfl, (by omega)⟩)
        obtain ⟨ihall, ihpw⟩ := ih (i + 1) 4 tagStart true ps hdrop1.symm hinv1 hp
        refine ⟨fun p hmem => ⟨(ihall p hmem).1, ?_⟩, ihpw⟩
        have hb := (ihall p hmem).2
        rw [if_true_nat] at hb
        rw [if_true_nat]
        exact hb
      · -- mismatch with part different from 4: reset, the character is consumed
        rw [parseLoop_reset inp rest c i part tagStart inTag hc hp4] at hp
        obtain ⟨ihall, ihpw⟩ :=
          ih (i + 1) 0 tagStart false ps hdrop1.symm (scanInv_reset inp (i + 1) tagStart) hp
        refine ⟨fun p hmem => ⟨(ihall p hmem).1, ?_⟩, ihpw⟩
        have hb := (ihall p hmem).2
        rw [if_false_nat] at hb
        cases hgg : inTag
        · rw [if_false_nat]
          omega
        · rw [if_true_nat]
          obtain ⟨_, _, hpos⟩ := hin hgg
          rcases hpos with ⟨_, hpe⟩ | ⟨_, hpe⟩ <;> omega

/-- Soundness of parse_placeholders: every emitted occurrence satisfies the
GoodTag shape facts, and the occurrences are pairwise separated. -/
theorem parse_good (inp : List Char) (ps : List PlaceholderExpr)
    (h : parse_placeholders inp = some ps) :
    (∀ p ∈ ps, GoodTag inp p) ∧ ps.Pairwise (fun a b => a.end_idx ≤ b.start_idx) := by
  have hall := parseLoop_good inp inp 0 0 0 false ps (by rfl) (scanInv_reset inp 0 0) h
  exact ⟨fun p hp => (hall.1 p hp).1, hall.2⟩

/-! Facts about the render loop. -/

theorem renderLoop_nil {π : Type} (call : HandlerCall π) (inp : List Char)
    (last_end : Nat) (out : List Char) (funcs : List (List Char × π)) :
    renderLoop call inp [] last_end out funcs =
      (byteSlice inp last_end (utf8Len inp)).map (fun t => (Except.ok (out ++ t), funcs)) := rfl

theorem renderLoop_cons {π : Type} (call : HandlerCall π) (inp : List Char)
    (p : PlaceholderExpr) (ps : List PlaceholderExpr) (last_end : Nat) (out : List Char)
    (funcs : List (List Char × π)) :
    renderLoop call inp (p :: ps) last_end out funcs =
      match byteSlice inp last_end p.start_idx with
      | none => none
      | some pre =>
        match (if p.content.contains ' ' then split_once p.content ' ' else some (p.content, [])) with
        | none => none
        | some fa =>
          match lookupFn funcs fa.1 with
          | none => some (Except.error (RenderError.UnknownFunction p), funcs)
          | some h =>
            match call h fa.1 fa.2 with
            | (Except.ok output, h1) =>
              renderLoop call inp ps p.end_idx (out ++ pre ++ output) (updateFn funcs fa.1 h1)
            | (Except.error err, h1) =>
              some (Except.error (RenderError.FunctionError fa.1 err), updateFn funcs fa.1 h1) := rfl

theorem runTags_cons {π : Type} (call : HandlerCall π) (p : PlaceholderExpr)
    (ps : List PlaceholderExpr) (funcs : List (List Char × π)) :
    runTags call (p :: ps) funcs =
      match lookupFn funcs (splitNameArg p.content).1 with
      | none => none
      | some h =>
        match call h (splitNameArg p.content).1 (splitNameArg p.content).2 with
        | (Except.ok _, h1) => runTags call ps (updateFn funcs (splitNameArg p.content).1 h1)
        | (Except.error _, _) => none := rfl

theorem updateFn_keys {π : Type} (funcs : List (List Char × π)) (name : List Char) (f : π) :
    (updateFn funcs name f).map Prod.fst = funcs.map Prod.fst := by
  induction funcs with
  | nil => rfl
  | cons e rest ih =>
    rw [updateFn]
    by_cases he : e.1 = name
    · rw [if_pos he]
      simp
    · rw [if_neg he]
      simp [ih]

/-- An error result of the render loop is the error of the first failing tag:
the handler calls of the tags strictly before it all succeed (runTags on the
prefix), and at the failing tag either the lookup fails and the error carries
the whole occurrence, or the handler fails and the error carries the name and
the message the handler returned. -/
theorem renderLoop_first_error {π : Type} (call : HandlerCall π) (inp : List Char) :
    ∀ (ps : List PlaceholderExpr) (last_end : Nat) (out : List Char)
      (funcs : List (List Char × π)) (e : RenderError) (fs : List (List Char × π)),
      renderLoop call inp ps last_end out funcs = some (Except.error e, fs) →
      ∃ k, ∃ hk : k < ps.length, ∃ fk,
        runTags call (ps.take k) funcs = some fk ∧
        ((lookupFn fk (splitNameArg (ps.get ⟨k, hk⟩).content).1 = none ∧
            e = RenderError.UnknownFunction (ps.get ⟨k, hk⟩)) ∨
          (∃ h0 h1 msg,
            lookupFn fk (splitNameArg (ps.get ⟨k, hk⟩).content).1 = some h0 ∧
            call h0 (splitNameArg (ps.get ⟨k, hk⟩).content).1
                (splitNameArg (ps.get ⟨k, hk⟩).content).2 = (Except.error msg, h1) ∧
            e = RenderError.FunctionError (splitNameArg (ps.get ⟨k, hk⟩).content).1 msg)) := by
  intro ps
  induction ps with
  | nil =>
    intro last_end out funcs e fs hp
    rw [renderLoop_nil, Option.map_eq_some'] at hp
    obtain ⟨t, _, hpe⟩ := hp
    obtain ⟨hres, _⟩ := Prod.mk.inj hpe
    exact Except.noConfusion hres
  | cons p ps ih =>
    intro last_end out funcs e fs hp
    rw [renderLoop_cons] at hp
    split at hp
    · exact Option.noConfusion hp
    · split at hp
      · exact Option.noConfusion hp
      · rename_i fa hfa
        rw [dispatch_eq_splitNameArg] at hfa
        have hfa' : fa = splitNameArg p.content := (Option.some.inj hfa).symm
        subst hfa'
        split at hp
        · rename_i hlk
          injection hp with hp
          obtain ⟨he, hfs⟩ := Prod.mk.inj hp
          have he' : e = RenderError.UnknownFunction p := by
            injection he with h
            exact h.symm
          exact ⟨0, (by simp), funcs, rfl, Or.inl ⟨hlk, he'⟩⟩
        · rename_i h0 hlk
          split at hp
          · rename_i output h1 hcall
            obtain ⟨k, hk, fk, hrun, hres⟩ := ih _ _ _ _ _ hp
            refine ⟨k + 1, (by simpa using Nat.succ_lt_succ hk), fk, ?_, ?_⟩
            · show runTags call (p :: ps.take k) funcs = some fk
              rw [runTags_cons]
              simp only [hlk, hcall]
              exact hrun
            · exact hres
          · rename_i err h1 hcall
            injection hp with hp
            obtain ⟨he, hfs⟩ := Prod.mk.inj hp
            have he' : e = RenderError.FunctionError (splitNameArg p.content).1 err := by
              injection he with h
              exact h.symm
            exact ⟨0, (by simp), funcs, rfl, Or.inr ⟨h0, h1, err, hlk, hcall, he'⟩⟩

/-- The render loop only rewrites handler states in the registry: the list of
registered names is untouched. -/
theorem renderLoop_keys {π : Type} (call : HandlerCall π) (inp : List Char) :
    ∀ (ps : List PlaceholderExpr) (last_end : Nat) (out : List Char)
      (funcs : List (List Char × π)) (r : Except RenderError (List Char))
      (fs : List (List Char × π)),
      renderLoop call inp ps last_end out funcs = some (r, fs) →
      fs.map Prod.fst = funcs.map Prod.fst := by
  intro ps
  induction ps with
  | nil =>
    intro last_end out funcs r fs hp
    rw [renderLoop_nil, Option.map_eq_some'] at hp
    obtain ⟨t, _, hpe⟩ := hp
    obtain ⟨_, hfs⟩ := Prod.mk.inj hpe
    rw [← hfs]
  | cons p ps ih =>
    intro last_end out funcs r fs hp
    rw [renderLoop_cons] at hp
    split at hp
    · exact Option.noConfusion hp
    · split at hp
      · exact Option.noConfusion hp
      · rename_i fa hfa
        split at hp
        · injection hp with hp
          obtain ⟨_, hfs⟩ := Prod.mk.inj hp
          rw [← hfs]
        · rename_i h0 hlk
          split at hp
          · rename_i output h1 hcall
            have hkeys := ih _ _ _ _ _ hp
            rw [hkeys, updateFn_keys]
          · rename_i err h1 hcall
            injection hp with hp
            obtain ⟨_, hfs⟩ := Prod.mk.inj hp
            rw [← hfs, updateFn_keys]

/-- A successful render ends with the byte slice of the template that runs
from some cursor position (0 or the end of one of the tags) to the end of the
template. -/
theorem renderLoop_ok_suffix {π : Type} (call : HandlerCall π) (inp : List Char) :
    ∀ (ps : List PlaceholderExpr) (last_end : Nat) (out : List Char)
      (funcs : List (List Char × π)) (res : List Char) (fs : List (List Char × π)),
      renderLoop call inp ps last_end out funcs = some (Except.ok res, fs) →
      ∃ out0 le1 tail, res = out0 ++ tail ∧
        byteSlice inp le1 (utf8Len inp) = some tail ∧
        (le1 = last_end ∨ ∃ p ∈ ps, le1 = p.end_idx) := by
  intro ps
  induction ps with
  | nil =>
    intro last_end out funcs res fs hp
    rw [renderLoop_nil, Option.map_eq_some'] at hp
    obtain ⟨t, hsl, hpe⟩ := hp
    obtain ⟨hres, _⟩ := Prod.mk.inj hpe
    have hres' : res = out ++ t := by
      injection hres with h
      exact h.symm
    exact ⟨out, last_end, t, hres', hsl, Or.inl rfl⟩
  | cons p ps ih =>
    intro last_end out funcs res fs hp
    rw [renderLoop_cons] at hp
    split at hp
    · exact Option.noConfusion hp
    · split at hp
      · exact Option.noConfusion hp
      · rename_i fa hfa
        split at hp
        · injection hp with hp
          obtain ⟨hres, _⟩ := Prod.mk.inj hp
          exact Except.noConfusion hres
        · rename_i h0 hlk
          split at hp
          · rename_i output h1 hcall
            obtain ⟨out0, le1, tail, hres, hsl1, hle⟩ := ih _ _ _ _ _ hp
            refine ⟨out0, le1, tail, hres, hsl1, ?_⟩
            rcases hle with rfl | ⟨q, hq, rfl⟩
            · exact Or.inr ⟨p, List.mem_cons_self p ps, rfl⟩
            · exact Or.inr ⟨q, List.mem_cons_of_mem p hq, rfl⟩
          · rename_i err h1 hcall
            injection hp with hp
            obtain ⟨hres, _⟩ := Prod.mk.inj hp
            exact Except.noConfusion hres

/-! Claim theorems. -/

/-- C4: the renderer splits a tag content at the first space only: a content
with a space splits into the text before the first space and the whole
remainder after it, and a content without a space is the whole name with an
empty argument. -/
theorem split_rule (content : List Char) :
    (content.contains ' ' = true →
      ∃ pre post, content = pre ++ ' ' :: post ∧ pre.contains ' ' = false ∧
        splitNameArg content = (pre, post)) ∧
    (content.contains ' ' = false → splitNameArg content = (content, [])) := by
  constructor
  · intro hc
    cases hs : split_once content ' ' with
    | none =>
      rw [(split_once_eq_none_iff content ' ').mp hs] at hc
      exact absurd hc (by simp)
    | some fa =>
      obtain ⟨hdec, hnc⟩ := split_once_eq_some content ' ' fa.1 fa.2 (by rw [hs])
      refine ⟨fa.1, fa.2, hdec, hnc, ?_⟩
      unfold splitNameArg
      rw [hs]
  · intro hc
    unfold splitNameArg
    rw [(split_once_eq_none_iff content ' ').mpr hc]

/-- Witness for split_rule at the content "ab c d": the name is "ab" and the
argument is the whole remainder "c d". -/
theorem split_rule_witness :
    ∃ pre post, (['a', 'b', ' ', 'c', ' ', 'd'] : List Char) = pre ++ ' ' :: post ∧
      pre.contains ' ' = false ∧
      splitNameArg ['a', 'b', ' ', 'c', ' ', 'd'] = (pre, post) :=
  (split_rule ['a', 'b', ' ', 'c', ' ', 'd']).1 (by decide)

/-- C8: when the scanner emits zero occurrences for a template, render
succeeds and returns the template unchanged, whatever the registry holds. -/
theorem no_tag_passthrough (π : Type) (call : HandlerCall π) (inp : List Char)
    (funcs : List (List Char × π))
    (hscan : parse_placeholders inp = some []) :
    render call
        { template_str := inp, placeholders := [], placeholder_functions := funcs } =
      some (Except.ok inp, funcs) := by
  show renderLoop call inp [] 0 [] funcs = some (Except.ok inp, funcs)
  rw [renderLoop_nil, byteSlice_full]
  rfl

/-- Witness for no_tag_passthrough on the tag-free template "hi". -/
theorem no_tag_passthrough_witness :
    render exCall
        { template_str := ['h', 'i'], placeholders := [],
          placeholder_functions := ([] : List (List Char × Unit)) } =
      some (Except.ok ['h', 'i'], []) :=
  no_tag_passthrough Unit exCall ['h', 'i'] [] rfl

/-- C9: construction with or without a template, template replacement,
handler registration (single, bulk merge, bulk replace) and render all
preserve the invariant that the stored occurrence list is the scan of the
stored template text. -/
theorem ops_preserve_consistency (π : Type) :
    Consistent (TemplateRenderer.new π) ∧
    (∀ (s : List Char) (tr : TemplateRenderer π),
      with_template π s = some tr → Consistent tr) ∧
    (∀ (tr : TemplateRenderer π) (s : List Char) (tr' : TemplateRenderer π),
      set_template tr s = some tr' → Consistent tr') ∧
    (∀ (tr : TemplateRenderer π) (n : List Char) (f : π),
      Consistent tr → Consistent (set_placeholder_fn tr n f)) ∧
    (∀ (tr : TemplateRenderer π) (m : List (List Char × π)),
      Consistent tr → Consistent (append_placeholders tr m)) ∧
    (∀ (tr : TemplateRenderer π) (m : List (List Char × π)),
      Consistent tr → Consistent (set_placeholders tr m)) ∧
    (∀ (call : HandlerCall π) (tr : TemplateRenderer π)
      (r : Except RenderError (List Char)) (fs : List (List Char × π)),
      Consistent tr → render call tr = some (r, fs) →
      Consistent { tr with placeholder_functions := fs }) := by
  refine ⟨rfl, ?_, ?_, ?_, ?_, ?_, ?_⟩
  · intro s tr htr
    rw [with_template, Option.map_eq_some'] at htr
    obtain ⟨ps, hps, htr'⟩ := htr
    subst htr'
    exact hps
  · intro tr s tr' htr
    rw [set_template, Option.map_eq_some'] at htr
    obtain ⟨ps, hps, htr'⟩ := htr
    subst htr'
    exact hps
  · intro tr n f hc
    exact hc
  · intro tr m hc
    exact hc
  · intro tr m hc
    exact hc
  · intro call tr r fs hc _
    exact hc

/-- Witness for ops_preserve_consistency: setting the template "<!$ x>" on a
fresh renderer yields a consistent state. -/
theorem ops_preserve_consistency_witness :
    Consistent
      ({ template_str := ['<', '!', '$', ' ', 'x', '>'],
         placeholders := [{ start_idx := 0, end_idx := 6, content := ['x'] }],
         placeholder_functions := [] } : TemplateRenderer Unit) :=
  (ops_preserve_consistency Unit).2.2.1 (TemplateRenderer.new Unit)
    ['<', '!', '$', ' ', 'x', '>']
    { template_str := ['<', '!', '$', ' ', 'x', '>'],
      placeholders := [{ start_idx := 0, end_idx := 6, content := ['x'] }],
      placeholder_functions := [] } rfl

/-- C10: set_template leaves the registry untouched (same entries, same
handler states), and a render call preserves the set of registered names. -/
theorem set_template_frame (π : Type) :
    (∀ (tr : TemplateRenderer π) (s : List Char) (tr' : TemplateRenderer π),
      set_template tr s = some tr' →
      tr'.placeholder_functions = tr.placeholder_functions) ∧
    (∀ (call : HandlerCall π) (tr : TemplateRenderer π)
      (r : Except RenderError (List Char)) (fs : List (List Char × π)),
      render call tr = some (r, fs) →
      fs.map Prod.fst = tr.placeholder_functions.map Prod.fst) := by
  constructor
  · intro tr s tr' htr
    rw [set_template, Option.map_eq_some'] at htr
    obtain ⟨ps, hps, htr'⟩ := htr
    subst htr'
    rfl
  · intro call tr r fs hr
    exact renderLoop_keys call tr.template_str tr.placeholders 0 []
      tr.placeholder_functions r fs hr

/-- Witness for set_template_frame: replacing the template of a fresh
renderer leaves its (empty) registry in place. -/
theorem set_template_frame_witness :
    ({ template_str := ['x'], placeholders := [],
       placeholder_functions := [] } : TemplateRenderer Unit).placeholder_functions =
      (TemplateRenderer.new Unit).placeholder_functions :=
  (set_template_frame Unit).1 (TemplateRenderer.new Unit) ['x']
    { template_str := ['x'], placeholders := [], placeholder_functions := [] } rfl

/-- C2 counterexample: scanning "<!$<!$ x>" recognizes no tag at all, because
the mismatched '<' after the failed partial match is consumed by the reset
and never re-compared in the same iteration. -/
theorem scan_rescan_cex :
    parse_placeholders ['<', '!', '$', '<', '!', '$', ' ', 'x', '>'] = some [] := by
  decide

/-- C2 amended: when the current character mismatches the expected delimiter
and part is not 4, the iteration resets the state and consumes the character
without re-comparing it against the opening delimiter, so a '<' right after a
failed partial match does not start a new candidate tag; in particular
"<!$<!$ x>" scans to zero occurrences. -/
theorem mismatch_consumes_char :
    (∀ (inp rest : List Char) (i part tagStart : Nat) (inTag : Bool) (c : Char),
      part < 4 → ¬ PLACEHOLDER_PARTS.getD part '#' = c →
      parseLoop inp (c :: rest) i part tagStart inTag =
        parseLoop inp rest (i + 1) 0 tagStart false) ∧
    parse_placeholders ['<', '!', '$', '<', '!', '$', ' ', 'x', '>'] = some [] := by
  constructor
  · intro inp rest i part tagStart inTag c hplt hc
    exact parseLoop_reset inp rest c i part tagStart inTag hc (by omega)
  · decide

/-- Witness for mismatch_consumes_char: a '<' met while expecting the space
of the opener resets the scanner and is itself consumed. -/
theorem mismatch_consumes_char_witness :
    parseLoop [] ['<'] 3 3 0 true = parseLoop [] [] 4 0 0 false :=
  mismatch_consumes_char.1 [] [] 3 3 0 true '<' (by omega) (by decide)

/-- C6 (code bug): the scanner mixes character indices with byte slicing, so
scanning "<!$ €>" panics: the content slice is taken at byte offsets 4..5 and
byte 5 falls inside the three-byte encoding of the character '€'.  In the
model the panic is the none result. -/
theorem parse_panics_on_multibyte :
    parse_placeholders ['<', '!', '$', ' ', '€', '>'] = none ∧
    byteSlice ['<', '!', '$', ' ', '€', '>'] 4 5 = none := by
  decide

theorem take_four_of_getElem (l : List Char) (c0 c1 c2 c3 : Char)
    (h0 : l[0]? = some c0) (h1 : l[1]? = some c1) (h2 : l[2]? = some c2)
    (h3 : l[3]? = some c3) : l.take 4 = [c0, c1, c2, c3] := by
  rcases l with _ | ⟨x0, _ | ⟨x1, _ | ⟨x2, _ | ⟨x3, tl⟩⟩⟩⟩ <;> simp_all

theorem take_one_of_getElem (l : List Char) (c : Char) (n : Nat)
    (h : l[n]? = some c) : (l.drop n).take 1 = [c] := by
  have hd : (l.drop n)[0]? = some c := by
    rw [List.getElem?_drop]
    simpa using h
  rcases hld : l.drop n with _ | ⟨x, tl⟩ <;> rw [hld] at hd <;> simp_all

/-- C5: the occurrences emitted by the scanner strictly increase in start
index, and each occurrence ends no later than the next one starts. -/
theorem scan_order (inp : List Char) (ps : List PlaceholderExpr)
    (hscan : parse_placeholders inp = some ps) :
    ps.Pairwise (fun a b => a.start_idx < b.start_idx) ∧
    List.Chain' (fun a b => a.end_idx ≤ b.start_idx) ps := by
  obtain ⟨hgood, hpw⟩ := parse_good inp ps hscan
  constructor
  · refine List.Pairwise.imp_of_mem ?_ hpw
    intro a b ha hb hr
    have h5 := (hgood a ha).1
    omega
  · exact hpw.chain'

/-- Witness for scan_order on the template "<!$ a> <!$ b>" with its two
occurrences. -/
theorem scan_order_witness :
    List.Pairwise (fun a b : PlaceholderExpr => a.start_idx < b.start_idx)
      [{ start_idx := 0, end_idx := 6, content := ['a'] },
       { start_idx := 7, end_idx := 13, content := ['b'] }] ∧
    List.Chain' (fun a b : PlaceholderExpr => a.end_idx ≤ b.start_idx)
      [{ start_idx := 0, end_idx := 6, content := ['a'] },
       { start_idx := 7, end_idx := 13, content := ['b'] }] :=
  scan_order ['<', '!', '$', ' ', 'a', '>', ' ', '<', '!', '$', ' ', 'b', '>']
    [{ start_idx := 0, end_idx := 6, content := ['a'] },
     { start_idx := 7, end_idx := 13, content := ['b'] }] rfl

/-- C1 counterexample: on the template "€<!$ x>" the scanner emits the
occurrence with start 1, end 7 and content "$".  With start and end read as
byte offsets the span 1..7 cannot even be sliced (byte 1 falls inside the
three-byte character '€'), so the claimed slice does not begin with the
opener, and the recorded content "$" is not the text inside the delimiters. -/
theorem span_bytes_cex :
    parse_placeholders ['€', '<', '!', '$', ' ', 'x', '>'] =
      some [{ start_idx := 1, end_idx := 7, content := ['$'] }] ∧
    byteSlice ['€', '<', '!', '$', ' ', 'x', '>'] 1 7 = none := by
  decide

/-- C1 amended: on templates made of single-byte (ASCII) characters, where
byte offsets and character offsets coincide, every emitted occurrence slices
the template from start to end as the opener, the content and the closing
marker, and the content is the slice from start + 4 to end - 1. -/
theorem span_correctness_ascii (inp : List Char) (hascii : ∀ c ∈ inp, c.utf8Size = 1)
    (ps : List PlaceholderExpr) (hscan : parse_placeholders inp = some ps) :
    ∀ p ∈ ps,
      byteSlice inp p.start_idx p.end_idx =
        some (['<', '!', '$', ' '] ++ p.content ++ ['>']) ∧
      byteSlice inp (p.start_idx + 4) (p.end_idx - 1) = some p.content := by
  intro p hp
  obtain ⟨hgood, _⟩ := parse_good inp ps hscan
  obtain ⟨h5, hlen, hg0, hg1, hg2, hg3, hgt, hcontent⟩ := hgood p hp
  refine ⟨?_, hcontent⟩
  rw [byteSlice_ascii inp hascii p.start_idx p.end_idx (by omega) hlen]
  have hcont2 : p.content =
      (inp.drop (p.start_idx + 4)).take (p.end_idx - 1 - (p.start_idx + 4)) := by
    rw [byteSlice_ascii inp hascii (p.start_idx + 4) (p.end_idx - 1) (by omega) (by omega)]
      at hcontent
    exact (Option.some.inj hcontent).symm
  have hba : p.end_idx - p.start_idx = 4 + (p.end_idx - p.start_idx - 4) := by omega
  rw [hba, List.take_add, List.drop_drop]
  have hn : p.end_idx - p.start_idx - 4 = (p.end_idx - 1 - (p.start_idx + 4)) + 1 := by
    omega
  rw [hn, List.take_add, List.drop_drop]
  have hm : p.start_idx + 4 + (p.end_idx - 1 - (p.start_idx + 4)) = p.end_idx - 1 := by
    omega
  rw [hm]
  have hA : (inp.drop p.start_idx).take 4 = ['<', '!', '$', ' '] := by
    refine take_four_of_getElem (inp.drop p.start_idx) '<' '!' '$' ' ' ?_ ?_ ?_ ?_ <;>
      rw [List.getElem?_drop]
    · simpa using hg0
    · exact hg1
    · exact hg2
    · exact hg3
  have hC : (inp.drop (p.end_idx - 1)).take 1 = ['>'] :=
    take_one_of_getElem inp '>' (p.end_idx - 1) hgt
  rw [hA, hC, ← hcont2, List.append_assoc]

/-- Witness for span_correctness_ascii on the template "<!$ x>" and its
single occurrence. -/
theorem span_correctness_ascii_witness :
    byteSlice ['<', '!', '$', ' ', 'x', '>'] 0 6 =
      some (['<', '!', '$', ' '] ++ ['x'] ++ ['>']) ∧
    byteSlice ['<', '!', '$', ' ', 'x', '>'] 4 5 = some ['x'] :=
  span_correctness_ascii ['<', '!', '$', ' ', 'x', '>'] (by decide)
    [{ start_idx := 0, end_idx := 6, content := ['x'] }] rfl
    { start_idx := 0, end_idx := 6, content := ['x'] } (by simp)

/-- C3: when render returns an error, it is the error of the first failing
tag in left-to-right order: the handler calls of all earlier tags succeed
(runTags on the prefix), and at the failing tag either the resolved name has
no registry entry and the error is Unknown-Function carrying the whole
occurrence, or the handler fails and the error is Function-Error carrying the
invocation name and the handler message verbatim.  The result type returns
the error alone, so no partial output accompanies a failure. -/
theorem render_first_error (π : Type) (call : HandlerCall π) (tr : TemplateRenderer π)
    (e : RenderError) (fs : List (List Char × π))
    (h : render call tr = some (Except.error e, fs)) :
    ∃ k, ∃ hk : k < tr.placeholders.length, ∃ fk,
      runTags call (tr.placeholders.take k) tr.placeholder_functions = some fk ∧
      ((lookupFn fk (splitNameArg (tr.placeholders.get ⟨k, hk⟩).content).1 = none ∧
          e = RenderError.UnknownFunction (tr.placeholders.get ⟨k, hk⟩)) ∨
        (∃ h0 h1 msg,
          lookupFn fk (splitNameArg (tr.placeholders.get ⟨k, hk⟩).content).1 = some h0 ∧
          call h0 (splitNameArg (tr.placeholders.get ⟨k, hk⟩).content).1
              (splitNameArg (tr.placeholders.get ⟨k, hk⟩).content).2 =
            (Except.error msg, h1) ∧
          e = RenderError.FunctionError
              (splitNameArg (tr.placeholders.get ⟨k, hk⟩).content).1 msg)) :=
  renderLoop_first_error call tr.template_str tr.placeholders 0 []
    tr.placeholder_functions e fs h

/-- Witness for render_first_error: rendering "<!$ x>" against an empty
registry fails with the Unknown-Function error carrying the occurrence. -/
theorem render_first_error_witness :
    ∃ k, ∃ hk : k < exTR.placeholders.length, ∃ fk,
      runTags exCall (exTR.placeholders.take k) exTR.placeholder_functions = some fk ∧
      ((lookupFn fk (splitNameArg (exTR.placeholders.get ⟨k, hk⟩).content).1 = none ∧
          RenderError.UnknownFunction { start_idx := 0, end_idx := 6, content := ['x'] } =
            RenderError.UnknownFunction (exTR.placeholders.get ⟨k, hk⟩)) ∨
        (∃ h0 h1 msg,
          lookupFn fk (splitNameArg (exTR.placeholders.get ⟨k, hk⟩).content).1 = some h0 ∧
          exCall h0 (splitNameArg (exTR.placeholders.get ⟨k, hk⟩).content).1
              (splitNameArg (exTR.placeholders.get ⟨k, hk⟩).content).2 =
            (Except.error msg, h1) ∧
          RenderError.UnknownFunction { start_idx := 0, end_idx := 6, content := ['x'] } =
            RenderError.FunctionError
              (splitNameArg (exTR.placeholders.get ⟨k, hk⟩).content).1 msg)) :=
  render_first_error Unit exCall exTR
    (RenderError.UnknownFunction { start_idx := 0, end_idx := 6, content := ['x'] }) [] rfl

/-- C7: a template whose text ends in a tag opener with no later closing
marker emits no occurrence for that trailing partial tag (every occurrence
ends inside the text before the opener), and a successful render reproduces
the whole trailing text, opener included, verbatim at the end of the
output. -/
theorem unterminated_tag (π : Type) (call : HandlerCall π) (pre t : List Char)
    (funcs : List (List Char × π)) (ps : List PlaceholderExpr)
    (hng : '>' ∉ t)
    (hscan : parse_placeholders (pre ++ '<' :: '!' :: '$' :: ' ' :: t) = some ps) :
    (∀ p ∈ ps, p.end_idx ≤ pre.length) ∧
    (∀ (out : List Char) (fs : List (List Char × π)),
      render call
          { template_str := pre ++ '<' :: '!' :: '$' :: ' ' :: t, placeholders := ps,
            placeholder_functions := funcs } = some (Except.ok out, fs) →
      ∃ out0, out = out0 ++ '<' :: '!' :: '$' :: ' ' :: t) := by
  obtain ⟨hgood, _⟩ := parse_good _ ps hscan
  have hend : ∀ p ∈ ps, p.end_idx ≤ pre.length := by
    intro p hp
    obtain ⟨h5, hlen, _, _, _, _, hgt, _⟩ := hgood p hp
    by_contra hgtq
    push_neg at hgtq
    rw [List.getElem?_append_right (by omega)] at hgt
    obtain ⟨hlt, heq⟩ := List.getElem?_eq_some_iff.mp hgt
    have hmem : '>' ∈ '<' :: '!' :: '$' :: ' ' :: t := by
      have hm := List.getElem_mem hlt
      rw [heq] at hm
      exact hm
    simp only [List.mem_cons] at hmem
    rcases hmem with h | h | h | h | h
    · exact absurd h (by decide)
    · exact absurd h (by decide)
    · exact absurd h (by decide)
    · exact absurd h (by decide)
    · exact hng h
  refine ⟨hend, ?_⟩
  intro out fs hr
  obtain ⟨out0, le1, tail, hout, hsl, hle⟩ :=
    renderLoop_ok_suffix call (pre ++ '<' :: '!' :: '$' :: ' ' :: t) ps 0 [] funcs out fs hr
  have hle1 : le1 ≤ pre.length := by
    rcases hle with rfl | ⟨p, hp, rfl⟩
    · omega
    · exact hend p hp
  obtain ⟨m, hm, htail⟩ := byteSlice_utf8Len_suffix _ le1 tail hsl
  subst htail
  rw [hout, List.drop_append_of_le_length (by omega)]
  exact ⟨out0 ++ pre.drop m, by simp⟩

/-- Witness for unterminated_tag on the template "a<!$ foo": the scan emits
nothing and the render output is the template itself, which ends with the
whole trailing partial tag. -/
theorem unterminated_tag_witness :
    (∀ p ∈ ([] : List PlaceholderExpr), p.end_idx ≤ (['a'] : List Char).length) ∧
    (∀ (out : List Char) (fs : List (List Char × Unit)),
      render exCall
          { template_str := ['a'] ++ '<' :: '!' :: '$' :: ' ' :: ['f', 'o', 'o'],
            placeholders := [], placeholder_functions := [] } =
        some (Except.ok out, fs) →
      ∃ out0, out = out0 ++ '<' :: '!' :: '$' :: ' ' :: ['f', 'o', 'o']) :=
  unterminated_tag Unit exCall ['a'] ['f', 'o', 'o'] [] [] (by decide) rfl
